import Mathlib

/-!
Shallow embedding of the negotiation core of the ANL-2023 example agents
(three agents: the adaptive learner, the strategic conceder and the deadline
pusher), together with proofs about the opponent-model estimators, the
acceptance policies and the bid-construction rules.

Python floats and `Decimal` profile utilities are embedded as real numbers;
Python dictionaries keyed by issue identifiers are embedded as association
lists of `String`s, and a bid is the association list of its issue/value
pairs.  Fallible constructors are embedded with `Except`.
-/

set_option maxHeartbeats 1000000

/-- A bid maps issue identifiers to the chosen value for that issue
(`geniusweb.issuevalue.Bid`). -/
abbrev Bid := List (String × String)

/-- `bid.getValue(issue)`: the value a bid assigns to an issue, `none`
when the bid does not mention the issue. -/
def Bid.getValue (b : Bid) (issue : String) : Option String :=
  List.lookup issue b

/-- An issue's value domain: either a finite discrete value set
(`DiscreteValueSet`) or a bounded numeric range (a continuous issue). -/
inductive ValueSet where
  | discrete (values : List String)
  | numberRange (low high : ℚ)
deriving DecidableEq

/-- Whether a value set is a discrete one. -/
def ValueSet.isDiscrete : ValueSet → Bool
  | .discrete _ => true
  | .numberRange _ _ => false

namespace AdaptiveLearner

/-!
### `group21_adaptive_learner_agent/utils/opponent_model.py`
The frequency-Bayesian opponent model.
-/

/-- State of `BayesianIssueEstimator`: the discrete value set of the issue,
the per-value observation counts (a Python dict with default `0`, whose keys
are the values offered; `None` can be a key when a bid lacks the issue) and
the total number of observations. -/
structure BayesianIssueEstimator where
  values : List String
  value_counts : Option String → ℕ
  total_count : ℕ

/-- The estimator state built by `BayesianIssueEstimator.__init__` from a
discrete value set: all counts zero. -/
def BayesianIssueEstimator.ofValues (vals : List String) : BayesianIssueEstimator :=
  { values := vals, value_counts := fun _ => 0, total_count := 0 }

/-- `BayesianIssueEstimator.__init__`: accepts only discrete value sets and
raises `TypeError` otherwise. -/
def BayesianIssueEstimator.init : ValueSet → Except String BayesianIssueEstimator
  | .discrete vals => .ok (.ofValues vals)
  | .numberRange _ _ =>
      .error "BayesianIssueEstimator supports only issues with discrete values"

/-- `BayesianIssueEstimator.update`: bump the total count and the count of
the observed value. -/
def BayesianIssueEstimator.update (e : BayesianIssueEstimator) (value : Option String) :
    BayesianIssueEstimator :=
  { e with
    total_count := e.total_count + 1,
    value_counts := fun k => if k = value then e.value_counts value + 1 else e.value_counts k }

/-- `BayesianIssueEstimator.get_value_utility`: the Dirichlet-smoothed
frequency `(count(v) + 1) / (total_count + n)`. -/
noncomputable def BayesianIssueEstimator.get_value_utility (e : BayesianIssueEstimator)
    (value : Option String) : ℝ :=
  ((e.value_counts value : ℝ) + 1) / ((e.total_count : ℝ) + (e.values.length : ℝ))

/-- The list `probabilities` computed inside `get_weight`: the smoothed
probability of every value of the issue's value set. -/
noncomputable def BayesianIssueEstimator.probs (e : BayesianIssueEstimator) : List ℝ :=
  e.values.map fun v =>
    ((e.value_counts (some v) : ℝ) + 1) / ((e.total_count : ℝ) + (e.values.length : ℝ))

/-- `BayesianIssueEstimator.get_weight`: one minus the normalized Shannon
entropy of the smoothed distribution.  The source guards the division with
`max_entropy > 0` where `max_entropy = log n`; for a natural `n` that
condition is exactly `1 < n`. -/
noncomputable def BayesianIssueEstimator.get_weight (e : BayesianIssueEstimator) : ℝ :=
  let entropy : ℝ := -((e.probs.map fun p => p * Real.log p).sum)
  let normalized_entropy : ℝ :=
    if 1 < e.values.length then entropy / Real.log (e.values.length : ℝ) else 0
  1 - normalized_entropy

/-- State of the frequency-Bayesian `OpponentModel`: the observed offers and
one estimator per issue of the domain. -/
structure OpponentModel where
  offers : List Bid
  issue_estimators : List (String × BayesianIssueEstimator)

/-- `OpponentModel.__init__` on a domain whose issues are all discrete:
fresh estimators, no offers. -/
def OpponentModel.ofDomain (domain : List (String × List String)) : OpponentModel :=
  { offers := [], issue_estimators := domain.map fun p => (p.1, .ofValues p.2) }

/-- `OpponentModel.update`: append the bid to the offer history and update
every issue estimator with the value the bid offers for that issue. -/
def OpponentModel.update (m : OpponentModel) (bid : Bid) : OpponentModel :=
  { offers := m.offers ++ [bid],
    issue_estimators := m.issue_estimators.map fun p => (p.1, p.2.update (bid.getValue p.1)) }

open Classical in
/-- `OpponentModel.get_predicted_utility`: `0.0` with no observed offer or no
candidate bid, otherwise the weight-normalized weighted sum of the per-issue
value utilities (`0.0` if the total weight is not positive). -/
noncomputable def OpponentModel.get_predicted_utility (m : OpponentModel) (bid : Option Bid) : ℝ :=
  match bid with
  | none => 0
  | some b =>
    if m.offers = [] then 0
    else
      let total_weight : ℝ := (m.issue_estimators.map fun p => p.2.get_weight).sum
      let predicted_utility : ℝ :=
        (m.issue_estimators.map fun p =>
          p.2.get_weight * p.2.get_value_utility (b.getValue p.1)).sum
      if 0 < total_weight then predicted_utility / total_weight else 0

/-- Well-formedness of an estimator state: a nonempty, duplicate-free value
set, a total count that matches the per-value counts, and no counts outside
the value set.  These hold for every state reached from
`BayesianIssueEstimator.__init__` by updates with well-formed bids. -/
def BayesianIssueEstimator.wf (e : BayesianIssueEstimator) : Prop :=
  e.values ≠ [] ∧ e.values.Nodup ∧
  e.total_count = (e.values.map fun v => e.value_counts (some v)).sum ∧
  ∀ k : Option String, (∀ v ∈ e.values, k ≠ some v) → e.value_counts k = 0

/-- Well-formedness of a model state: every issue estimator is well formed. -/
def OpponentModel.wf (m : OpponentModel) : Prop :=
  ∀ p ∈ m.issue_estimators, BayesianIssueEstimator.wf p.2

end AdaptiveLearner

namespace AdaptiveLearner

/-!
### `group21_adaptive_learner_agent.py`
The behavior-dependent adaptive learner agent (dynamic-threshold acceptance).
-/

/-- The per-session scalars of `Group21AdaptiveLearnerAgent` that
`compute_acceptance_threshold` reads.  In the source the opponent model is
`None` until the first offer; in every state where the concession branch is
taken (both `initial_opponent_utility` and `last_received_bid` set) the model
exists, so it is embedded as a plain field.  `reservation_value` is set to
`0.65` in `__init__`. -/
structure AgentState where
  initial_opponent_utility : Option ℝ
  last_received_bid : Option Bid
  opponent_model : OpponentModel
  reservation_value : ℝ

/-- `compute_acceptance_threshold`: linear descent from `0.95` to `0.70`,
lowered by up to `0.10` times the clamped observed concession, floored at the
reservation value. -/
noncomputable def compute_acceptance_threshold (s : AgentState) (progress : ℝ) : ℝ :=
  let initial_threshold : ℝ := 0.95
  let final_threshold : ℝ := 0.70
  let base_threshold : ℝ := initial_threshold - (initial_threshold - final_threshold) * progress
  match s.initial_opponent_utility, s.last_received_bid with
  | some init, some b =>
    let current_opp_util : ℝ := s.opponent_model.get_predicted_utility (some b)
    let concession : ℝ := (init - current_opp_util) / init
    let concession : ℝ := max 0 (min concession 1)
    let behavior_adjustment : ℝ := concession * 0.10
    max (base_threshold - behavior_adjustment) s.reservation_value
  | _, _ => max base_threshold s.reservation_value

/-- Weight that the model assigns to one issue (the `get_weight` of that
issue's estimator); `0` for an unknown issue. -/
noncomputable def issueWeight (m : OpponentModel) (issue : String) : ℝ :=
  match m.issue_estimators.lookup issue with
  | some e => e.get_weight
  | none => 0

/-- The two-issue domain of the end-to-end scenario: issue `A` discrete
`{low, high}`, issue `B` discrete `{x, y, z}`. -/
def domainAB : List (String × List String) := [("A", ["low", "high"]), ("B", ["x", "y", "z"])]

/-- The opponent offer `(low, x)`. -/
def bidLX : Bid := [("A", "low"), ("B", "x")]

/-- The opponent offer `(high, y)`. -/
def bidHY : Bid := [("A", "high"), ("B", "y")]

/-- The model state after the five scenario updates: `(low,x)` three times,
then `(high,y)` twice. -/
def m5 : OpponentModel :=
  (((((OpponentModel.ofDomain domainAB).update bidLX).update bidLX).update bidLX).update
      bidHY).update bidHY

end AdaptiveLearner

namespace StrategicConceder

/-!
### `group21_strategic_conceder_agent/utils/opponent_model.py`
The kernel-density-estimation opponent model.  The statistical refit
`_recalculate_weights_and_utilities` (a scipy Gaussian KDE fit with random
jitter) is not embedded; the `weight` and `value_utilities` fields below hold
whatever that refit last produced, and the statements about
`get_predicted_utility` are proved for arbitrary such states.
-/

/-- One entry of `self.issue_info`: the issue's discrete values, its current
estimated weight and the per-value utilities (a `defaultdict` with default
`0.0`). -/
structure IssueInfo where
  values : List String
  weight : ℝ
  value_utilities : String → ℝ

/-- State of the KDE `OpponentModel`. -/
structure OpponentModel where
  offers : List Bid
  issue_info : List (String × IssueInfo)

/-- `OpponentModel.__init__`: builds an `issue_info` entry for each discrete
issue with initial weight `1 / len(domain.getIssues())` and all value
utilities `0.0`, and silently `continue`s over non-discrete issues. -/
noncomputable def OpponentModel.init (domain : List (String × ValueSet)) : OpponentModel :=
  { offers := [],
    issue_info := domain.filterMap fun p =>
      match p.2 with
      | .discrete vals =>
          some (p.1,
            { values := vals, weight := 1 / (domain.length : ℝ), value_utilities := fun _ => 0 })
      | .numberRange _ _ => none }

/-- `OpponentModel.get_predicted_utility`: `0.0` with no candidate bid or no
observed offer, otherwise the weighted sum of per-value utilities over the
issues the bid mentions, clamped to `[0, 1]`. -/
noncomputable def OpponentModel.get_predicted_utility (m : OpponentModel) (bid : Option Bid) : ℝ :=
  match bid with
  | none => 0
  | some b =>
    if m.offers = [] then 0
    else
      let predicted_utility : ℝ :=
        (m.issue_info.map fun p =>
          match b.getValue p.1 with
          | some v => p.2.weight * p.2.value_utilities v
          | none => 0).sum
      max 0 (min 1 predicted_utility)

/-!
### `group21_strategic_conceder_agent.py`
The strategic conceder agent (trade-off bidding, AC-next acceptance).
-/

/-- The pair of per-session scalars that `_update_target_utility` touches. -/
structure AgentState where
  target_utility : ℝ
  reservation_value : ℝ

/-- `_update_target_utility`: subtract the fixed decrement `0.0005`, then
floor at the reservation value. -/
noncomputable def updateTargetUtility (s : AgentState) : AgentState :=
  { s with target_utility := max s.reservation_value (s.target_utility - 0.0005) }

/-- The target utility after `n` turns: it starts at
`self.max_utility = 1.0` and `_update_target_utility` runs once per
`YourTurn`. -/
noncomputable def targetAfter (res : ℝ) : ℕ → ℝ
  | 0 => 1
  | n + 1 =>
      (updateTargetUtility { target_utility := targetAfter res n, reservation_value := res }).target_utility

/-- `accept_condition`: `False` with no received bid, otherwise accept iff
the received bid's own utility is at least the reservation value and at
least the utility of the bid about to be offered (AC-next). -/
def accept_condition (getUtility : Bid → ℝ) (reservation_value : ℝ)
    (received_bid : Option Bid) (next_bid_to_offer : Bid) : Prop :=
  match received_bid with
  | none => False
  | some b =>
      getUtility b ≥ reservation_value ∧ getUtility b ≥ getUtility next_bid_to_offer

end StrategicConceder

namespace DeadlinePusher

/-!
### `group21_deadline_pusher_agent/utils/opponent_model.py`
The rank-distance heuristic opponent model.
-/

/-- State of an `IssueEstimator`: the number of bids seen and the raw weight
derived from the value distance of the last two observed bids. -/
structure IssueEstimator where
  bids_received : ℕ
  weight : ℝ

/-- The estimator state built by `IssueEstimator.__init__`. -/
def IssueEstimator.initState : IssueEstimator :=
  { bids_received := 0, weight := 0 }

/-- `IssueEstimator.__init__`: accepts only discrete value sets and raises
`TypeError` otherwise. -/
def IssueEstimator.init : ValueSet → Except String IssueEstimator
  | .discrete _ => .ok .initState
  | .numberRange _ _ =>
      .error "This issue estimator only supports issues with discrete values"

/-- The lookup table `self.avd_to_weight` mapping a capped value distance to
a raw weight.  Distances fed to `update` always lie in `0..4` (they are
`min(abs(ind1 - ind2), 4)` or the default `3`); any other key would raise
`KeyError` in the source and is mapped to `0` here. -/
noncomputable def avdToWeight : ℕ → ℝ
  | 0 => 6
  | 1 => 4
  | 2 => 3
  | 3 => 1
  | 4 => 0.5
  | _ + 5 => 0

/-- `IssueEstimator.update`: count the bid and replace the weight by the
table entry for the given average value distance. -/
noncomputable def IssueEstimator.update (e : IssueEstimator) (avd : ℕ) : IssueEstimator :=
  { bids_received := e.bids_received + 1, weight := avdToWeight avd }

/-- State of the rank-distance `OpponentModel`.  Its `update` method feeds
each estimator the capped index distance between the last two observed bids
(via `get_average_value_distances`); those details do not matter for the
statements below, which hold for every reachable estimator state. -/
structure OpponentModel where
  offers : List Bid
  domain : List (String × List String)
  issue_estimators : List (String × IssueEstimator)

open Classical in
/-- `OpponentModel.getWeight`: the issue's raw weight normalized by the sum
of all raw weights, uniform `1 / len` when the total is zero, `0.0` for an
unknown issue. -/
noncomputable def OpponentModel.getWeight (m : OpponentModel) (issue : String) : ℝ :=
  match m.issue_estimators.lookup issue with
  | some e =>
      let total_issue_weight : ℝ := (m.issue_estimators.map fun p => p.2.weight).sum
      if total_issue_weight = 0 then 1 / (m.issue_estimators.length : ℝ)
      else e.weight / total_issue_weight
  | none => 0

/-- Modelled from the spec: the rank-distance variant defines no
`predictedUtility` of its own in the source (`OpponentModel` in
`group21_deadline_pusher_agent/utils/opponent_model.py` only exposes
`getWeight`); spec section 4.1.b prescribes that an implementation expose one
"computed, if needed, as the weighted indicator of value equals most
recently observed value for that issue", and section 4.1 prescribes `0.0`
when no bid has been observed or the candidate bid is absent. -/
noncomputable def OpponentModel.predictedUtility (m : OpponentModel) (bid : Option Bid) : ℝ :=
  match bid, m.offers.getLast? with
  | some b, some lastBid =>
      (m.issue_estimators.map fun p =>
        m.getWeight p.1 * (if b.getValue p.1 = lastBid.getValue p.1 then 1 else 0)).sum
  | _, _ => 0

/-- Well-formedness of a rank-distance model state: duplicate-free issue
keys and nonnegative estimator weights.  Weights are `0` initially and are
always table values afterwards, so nonnegativity holds in every reachable
state (see `IssueEstimator_update_weight_nonneg`). -/
def OpponentModel.wf (m : OpponentModel) : Prop :=
  (m.issue_estimators.map Prod.fst).Nodup ∧ ∀ p ∈ m.issue_estimators, 0 ≤ p.2.weight

/-!
### `group21_deadline_pusher_agent.py`
The deadline pusher agent (time-dependent concession-curve bidding).
-/

/-- `self.kappa`, the concession-curve floor parameter. -/
noncomputable def kappa : ℝ := 0.1

/-- `self.beta`, the concession-shape parameter (boulware family). -/
noncomputable def beta : ℝ := 0.2

/-- `compute_alpha`: the polynomial concession curve
`κ + (1 − κ) · t^(1/β)`. -/
noncomputable def compute_alpha (t : ℝ) : ℝ :=
  kappa + (1 - kappa) * t ^ ((1 : ℝ) / beta)

/-- The descending-utility order used to rank a discrete issue's values:
`values_with_utils.sort(key=lambda x: x[1], reverse=True)`. -/
def valueDescOrder (x y : String × ℚ) : Prop := y.2 ≤ x.2

instance : DecidableRel valueDescOrder := fun x y => inferInstanceAs (Decidable (y.2 ≤ x.2))

instance : IsTotal (String × ℚ) valueDescOrder := ⟨fun a b => le_total b.2 a.2⟩

instance : IsTrans (String × ℚ) valueDescOrder := ⟨fun _ _ _ h1 h2 => le_trans h2 h1⟩

/-- The sorted `values_with_utils` list of `find_bid`'s discrete branch.
Python's `list.sort` is stable and a stable sort is uniquely determined by
its comparison, so insertion sort agrees with the source on every input.
The geniusweb `DiscreteValueSetUtilities` values are exact `Decimal`s,
embedded as rationals. -/
def sortValuesDesc (l : List (String × ℚ)) : List (String × ℚ) :=
  List.insertionSort valueDescOrder l

/-- The discrete branch of `find_bid` building the time-dependent bid: rank
the issue's values by own utility descending and take the entry at index
`int(compute_alpha(t) * (len(values_with_utils) - 1))`.  Python's `int()`
truncates toward zero, which is the floor for the nonnegative arguments
arising for `t ∈ [0, 1]`. -/
noncomputable def discrete_time_value (l : List (String × ℚ)) (t : ℝ) : Option String :=
  let sorted := sortValuesDesc l
  let ind : ℕ := (⌊compute_alpha t * ((l.length : ℝ) - 1)⌋).toNat
  (sorted[ind]?).map Prod.fst

/-- Modelled from the spec: "for discrete issues, rank values by utility
descending and index into that ranking at position `round(α(t)·(count−1))`"
— identical to `discrete_time_value` except that the index is rounded to the
nearest integer instead of truncated. -/
noncomputable def spec_discrete_time_value (l : List (String × ℚ)) (t : ℝ) : Option String :=
  let sorted := sortValuesDesc l
  let ind : ℕ := (round (compute_alpha t * ((l.length : ℝ) - 1))).toNat
  (sorted[ind]?).map Prod.fst

/-- A five-value discrete issue whose values are already ranked by strictly
descending utility. -/
def lFive : List (String × ℚ) :=
  [("a", 9), ("b", 8), ("c", 6), ("d", 4), ("e", 2)]

end DeadlinePusher

/-- A domain consisting of one continuous (numeric-range) issue. -/
def contDomain : List (String × ValueSet) := [("price", ValueSet.numberRange 0 1)]

namespace StrategicConceder

/-- A received bid used in the AC-next examples. -/
def bidX : Bid := [("i", "x")]

/-- A counter-offer bid used in the AC-next examples. -/
def bidY : Bid := [("i", "y")]

end StrategicConceder

namespace AdaptiveLearner

/-- The spec's wording of the value-utility estimate, as a standalone
formula: a symmetric Dirichlet-smoothed frequency
`(count(v) + 1) / (totalObservations + numPossibleValues)`. -/
noncomputable def spec_dirichlet_value_estimate
    (count totalObservations numPossibleValues : ℕ) : ℝ :=
  ((count : ℝ) + 1) / ((totalObservations : ℝ) + (numPossibleValues : ℝ))

/-- The spec's wording of normalized entropy: Shannon entropy divided by
`ln(numPossibleValues)`, taken as `0` when the issue has only one possible
value. -/
noncomputable def spec_normalized_entropy (probs : List ℝ) (numPossibleValues : ℕ) : ℝ :=
  if numPossibleValues = 1 then 0
  else -((probs.map fun p => p * Real.log p).sum) / Real.log (numPossibleValues : ℝ)

end AdaptiveLearner

/-!
## List arithmetic helpers
-/

theorem list_sum_map_neg {α : Type} (l : List α) (f : α → ℝ) :
    (l.map fun x => -f x).sum = -((l.map f).sum) := by
  induction l with
  | nil => simp
  | cons a l ih => simp [ih]; ring

theorem list_sum_map_div {α : Type} (l : List α) (f : α → ℝ) (d : ℝ) :
    (l.map fun x => f x / d).sum = (l.map f).sum / d := by
  induction l with
  | nil => simp
  | cons a l ih => simp [ih, add_div]

theorem list_sum_map_sub {α : Type} (l : List α) (f g : α → ℝ) :
    (l.map fun x => f x - g x).sum = (l.map f).sum - (l.map g).sum := by
  induction l with
  | nil => simp
  | cons a l ih => simp [ih]; ring

theorem list_sum_map_mul_right {α : Type} (l : List α) (f : α → ℝ) (c : ℝ) :
    (l.map fun x => f x * c).sum = (l.map f).sum * c := by
  induction l with
  | nil => simp
  | cons a l ih => simp [ih]; ring

theorem list_sum_map_const {α : Type} (l : List α) (c : ℝ) :
    (l.map fun _ => c).sum = (l.length : ℝ) * c := by
  induction l with
  | nil => simp
  | cons a l ih => simp [ih]; ring

theorem list_sum_map_add_const {α : Type} (l : List α) (f : α → ℝ) (c : ℝ) :
    (l.map fun x => f x + c).sum = (l.map f).sum + (l.length : ℝ) * c := by
  induction l with
  | nil => simp
  | cons a l ih => simp [ih]; ring

/-- In a duplicate-free association list, `lookup` of a member's key returns
that member's value. -/
theorem list_lookup_of_nodup_keys {β : Type} :
    ∀ (l : List (String × β)), (l.map Prod.fst).Nodup →
      ∀ p ∈ l, l.lookup p.1 = some p.2 := by
  intro l
  induction l with
  | nil => intro _ p hp; cases hp
  | cons q l ih =>
    intro hnd p hp
    rcases List.mem_cons.mp hp with rfl | hp'
    · simp [List.lookup]
    · have hq : q.1 ∉ l.map Prod.fst := (List.nodup_cons.mp (by simpa using hnd)).1
      have hne : (p.1 == q.1) = false := by
        apply beq_false_of_ne
        intro h
        exact hq (h ▸ List.mem_map_of_mem Prod.fst hp')
      simp only [List.lookup, hne]
      exact ih (List.nodup_cons.mp (by simpa using hnd)).2 p hp'

/-!
## The Gibbs inequality for list-represented distributions

For a probability distribution given as a list `l` of positive reals summing
to `1`, the Shannon entropy is at most `log l.length`, strictly unless the
distribution is uniform.
-/

theorem gibbs_pointwise {n p : ℝ} (hn : 0 < n) (hp : 0 < p) :
    -(p * Real.log p) - p * Real.log n ≤ 1 / n - p := by
  have h1 : Real.log (1 / (n * p)) ≤ 1 / (n * p) - 1 :=
    Real.log_le_sub_one_of_pos (by positivity)
  have hlog : Real.log (1 / (n * p)) = -(Real.log n + Real.log p) := by
    rw [one_div, Real.log_inv, Real.log_mul (ne_of_gt hn) (ne_of_gt hp)]
  have h2 : p * Real.log (1 / (n * p)) ≤ p * (1 / (n * p) - 1) :=
    mul_le_mul_of_nonneg_left h1 hp.le
  rw [hlog] at h2
  have h3 : p * (1 / (n * p) - 1) = 1 / n - p := by
    field_simp
    ring
  have h4 : p * -(Real.log n + Real.log p) = -(p * Real.log p) - p * Real.log n := by ring
  rw [h3, h4] at h2
  exact h2

theorem gibbs_pointwise_strict {n p : ℝ} (hn : 0 < n) (hp : 0 < p) (hne : p ≠ 1 / n) :
    -(p * Real.log p) - p * Real.log n < 1 / n - p := by
  have hne1 : 1 / (n * p) ≠ 1 := by
    intro h
    apply hne
    have : n * p = 1 := by
      field_simp at h
      linarith [h]
    field_simp
    linarith [this]
  have h1 : Real.log (1 / (n * p)) < 1 / (n * p) - 1 :=
    Real.log_lt_sub_one_of_pos (by positivity) hne1
  have hlog : Real.log (1 / (n * p)) = -(Real.log n + Real.log p) := by
    rw [one_div, Real.log_inv, Real.log_mul (ne_of_gt hn) (ne_of_gt hp)]
  have h2 : p * Real.log (1 / (n * p)) < p * (1 / (n * p) - 1) :=
    mul_lt_mul_of_pos_left h1 hp
  rw [hlog] at h2
  have h3 : p * (1 / (n * p) - 1) = 1 / n - p := by
    field_simp
    ring
  have h4 : p * -(Real.log n + Real.log p) = -(p * Real.log p) - p * Real.log n := by ring
  rw [h3, h4] at h2
  exact h2

theorem entropy_le_log_length (l : List ℝ) (hpos : ∀ p ∈ l, 0 < p) (hsum : l.sum = 1) :
    -((l.map fun p => p * Real.log p).sum) ≤ Real.log (l.length : ℝ) := by
  have hne : l ≠ [] := by rintro rfl; simp at hsum
  have hlen : 0 < (l.length : ℝ) := by
    exact_mod_cast List.length_pos.mpr hne
  have key : ∀ p ∈ l,
      -(p * Real.log p) - p * Real.log (l.length : ℝ) ≤ 1 / (l.length : ℝ) - p :=
    fun p hp => gibbs_pointwise hlen (hpos p hp)
  have hsum2 := List.sum_le_sum key
  have hL : (l.map fun p => -(p * Real.log p) - p * Real.log (l.length : ℝ)).sum
      = -((l.map fun p => p * Real.log p).sum) - Real.log (l.length : ℝ) := by
    rw [list_sum_map_sub, list_sum_map_neg, list_sum_map_mul_right]
    have : (l.map fun p => p).sum = 1 := by simpa [List.map_id'] using hsum
    rw [this, one_mul]
  have hR : (l.map fun p => 1 / (l.length : ℝ) - p).sum = 0 := by
    rw [list_sum_map_sub, list_sum_map_const]
    have : (l.map fun p => p).sum = 1 := by simpa [List.map_id'] using hsum
    rw [this]
    field_simp
  rw [hL, hR] at hsum2
  linarith

theorem entropy_lt_log_length (l : List ℝ) (hpos : ∀ p ∈ l, 0 < p) (hsum : l.sum = 1)
    (hx : ∃ p ∈ l, p ≠ 1 / (l.length : ℝ)) :
    -((l.map fun p => p * Real.log p).sum) < Real.log (l.length : ℝ) := by
  have hne : l ≠ [] := by rintro rfl; simp at hsum
  have hlen : 0 < (l.length : ℝ) := by
    exact_mod_cast List.length_pos.mpr hne
  have key : ∀ p ∈ l,
      -(p * Real.log p) - p * Real.log (l.length : ℝ) ≤ 1 / (l.length : ℝ) - p :=
    fun p hp => gibbs_pointwise hlen (hpos p hp)
  obtain ⟨q, hq, hqne⟩ := hx
  have keyq : -(q * Real.log q) - q * Real.log (l.length : ℝ) < 1 / (l.length : ℝ) - q :=
    gibbs_pointwise_strict hlen (hpos q hq) hqne
  have hsum2 := List.sum_lt_sum
    (fun p => -(p * Real.log p) - p * Real.log (l.length : ℝ))
    (fun p => 1 / (l.length : ℝ) - p) key ⟨q, hq, keyq⟩
  have hL : (l.map fun p => -(p * Real.log p) - p * Real.log (l.length : ℝ)).sum
      = -((l.map fun p => p * Real.log p).sum) - Real.log (l.length : ℝ) := by
    rw [list_sum_map_sub, list_sum_map_neg, list_sum_map_mul_right]
    have : (l.map fun p => p).sum = 1 := by simpa [List.map_id'] using hsum
    rw [this, one_mul]
  have hR : (l.map fun p => 1 / (l.length : ℝ) - p).sum = 0 := by
    rw [list_sum_map_sub, list_sum_map_const]
    have : (l.map fun p => p).sum = 1 := by simpa [List.map_id'] using hsum
    rw [this]
    field_simp
  rw [hL, hR] at hsum2
  linarith

theorem list_sum_map_cast {α : Type} (l : List α) (f : α → ℕ) :
    (l.map fun x => ((f x : ℕ) : ℝ)).sum = ((l.map f).sum : ℝ) := by
  induction l with
  | nil => simp
  | cons a l ih => simp [ih]

/-- Summing a function over a duplicate-free list after bumping it at one
member adds one to the sum. -/
theorem list_sum_map_bump (l : List String) (hnd : l.Nodup) (v : String) (hv : v ∈ l)
    (f : String → ℕ) :
    (l.map fun u => if u = v then f v + 1 else f u).sum = (l.map f).sum + 1 := by
  induction l with
  | nil => cases hv
  | cons a l ih =>
    by_cases hav : a = v
    · subst hav
      have ha : a ∉ l := (List.nodup_cons.mp hnd).1
      have hmap : (l.map fun u => if u = a then f a + 1 else f u) = l.map f := by
        apply List.map_congr_left
        intro u hu
        have : u ≠ a := fun h => ha (h ▸ hu)
        simp [this]
      simp only [List.map_cons, List.sum_cons, hmap, if_true]
      omega
    · have hv' : v ∈ l := by
        rcases List.mem_cons.mp hv with h | h
        · exact absurd h.symm hav
        · exact h
      simp only [List.map_cons, List.sum_cons, if_neg hav]
      rw [ih (List.nodup_cons.mp hnd).2 hv']
      omega

namespace AdaptiveLearner

/-!
## Lemmas about the frequency-Bayesian estimator
-/

theorem BayesianIssueEstimator.probs_length (e : BayesianIssueEstimator) :
    e.probs.length = e.values.length := by
  simp [BayesianIssueEstimator.probs]

theorem BayesianIssueEstimator.length_pos (e : BayesianIssueEstimator)
    (h1 : e.values ≠ []) : 0 < (e.values.length : ℝ) := by
  exact_mod_cast List.length_pos.mpr h1

theorem BayesianIssueEstimator.denom_pos (e : BayesianIssueEstimator)
    (h1 : e.values ≠ []) : 0 < (e.total_count : ℝ) + (e.values.length : ℝ) :=
  add_pos_of_nonneg_of_pos (Nat.cast_nonneg _) (e.length_pos h1)

theorem BayesianIssueEstimator.probs_pos (e : BayesianIssueEstimator)
    (h1 : e.values ≠ []) : ∀ p ∈ e.probs, 0 < p := by
  intro p hp
  simp only [BayesianIssueEstimator.probs, List.mem_map] at hp
  obtain ⟨v, _, rfl⟩ := hp
  exact div_pos (by positivity) (e.denom_pos h1)

theorem BayesianIssueEstimator.probs_sum_eq_one (e : BayesianIssueEstimator) (hwf : e.wf) :
    e.probs.sum = 1 := by
  obtain ⟨h1, _, htot, _⟩ := hwf
  have hd : (e.total_count : ℝ) + (e.values.length : ℝ) ≠ 0 := ne_of_gt (e.denom_pos h1)
  unfold BayesianIssueEstimator.probs
  rw [list_sum_map_div, list_sum_map_add_const, list_sum_map_cast, ← htot]
  rw [mul_one, div_eq_one_iff_eq hd]

theorem BayesianIssueEstimator.get_value_utility_pos (e : BayesianIssueEstimator)
    (h1 : e.values ≠ []) (v : Option String) : 0 < e.get_value_utility v :=
  div_pos (by positivity) (e.denom_pos h1)

theorem BayesianIssueEstimator.count_le_total (e : BayesianIssueEstimator) (hwf : e.wf)
    (k : Option String) : e.value_counts k ≤ e.total_count := by
  obtain ⟨_, _, htot, hout⟩ := hwf
  by_cases hk : ∃ v ∈ e.values, k = some v
  · obtain ⟨v, hv, rfl⟩ := hk
    rw [htot]
    exact List.le_sum_of_mem (List.mem_map_of_mem _ hv)
  · push_neg at hk
    rw [hout k hk]
    exact Nat.zero_le _

theorem BayesianIssueEstimator.get_value_utility_le_one (e : BayesianIssueEstimator)
    (hwf : e.wf) (v : Option String) : e.get_value_utility v ≤ 1 := by
  have h1 : e.values ≠ [] := hwf.1
  rw [BayesianIssueEstimator.get_value_utility, div_le_one (e.denom_pos h1)]
  have hc : (e.value_counts v : ℝ) ≤ (e.total_count : ℝ) :=
    Nat.cast_le.mpr (e.count_le_total hwf v)
  have hn : (1 : ℝ) ≤ (e.values.length : ℝ) := by
    exact_mod_cast Nat.one_le_iff_ne_zero.mpr (fun h => h1 (List.length_eq_zero.mp h))
  linarith

theorem BayesianIssueEstimator.get_weight_nonneg (e : BayesianIssueEstimator) (hwf : e.wf) :
    0 ≤ e.get_weight := by
  simp only [BayesianIssueEstimator.get_weight]
  by_cases h : 1 < e.values.length
  · rw [if_pos h]
    have hlog : 0 < Real.log (e.values.length : ℝ) :=
      Real.log_pos (by exact_mod_cast h)
    have hent := entropy_le_log_length e.probs (e.probs_pos hwf.1) (e.probs_sum_eq_one hwf)
    rw [e.probs_length] at hent
    have : -((e.probs.map fun p => p * Real.log p).sum) / Real.log (e.values.length : ℝ) ≤ 1 :=
      (div_le_one hlog).mpr hent
    linarith
  · rw [if_neg h]
    norm_num

end AdaptiveLearner

namespace AdaptiveLearner

theorem BayesianIssueEstimator.wf_ofValues (vals : List String) (hne : vals ≠ [])
    (hnd : vals.Nodup) : (BayesianIssueEstimator.ofValues vals).wf := by
  refine ⟨hne, hnd, ?_, fun k _ => rfl⟩
  simp [BayesianIssueEstimator.ofValues]

theorem BayesianIssueEstimator.wf_update (e : BayesianIssueEstimator) (hwf : e.wf)
    {v : String} (hv : v ∈ e.values) : (e.update (some v)).wf := by
  obtain ⟨h1, h2, h3, h4⟩ := hwf
  refine ⟨h1, h2, ?_, ?_⟩
  · show e.total_count + 1 =
      (e.values.map fun u =>
        if some u = some v then e.value_counts (some v) + 1 else e.value_counts (some u)).sum
    have hmap : (e.values.map fun u =>
        if some u = some v then e.value_counts (some v) + 1 else e.value_counts (some u))
        = e.values.map fun u =>
            if u = v then e.value_counts (some v) + 1 else e.value_counts (some u) := by
      simp only [Option.some.injEq]
    rw [hmap, list_sum_map_bump e.values h2 v hv (fun u => e.value_counts (some u)), ← h3]
  · intro k hk
    show (if k = some v then e.value_counts (some v) + 1 else e.value_counts k) = 0
    rw [if_neg (hk v hv)]
    exact h4 k hk

theorem OpponentModel.wf_ofDomain (d : List (String × List String))
    (hd : ∀ p ∈ d, p.2 ≠ [] ∧ p.2.Nodup) : (OpponentModel.ofDomain d).wf := by
  intro p hp
  simp only [OpponentModel.ofDomain, List.mem_map] at hp
  obtain ⟨q, hq, rfl⟩ := hp
  exact BayesianIssueEstimator.wf_ofValues q.2 (hd q hq).1 (hd q hq).2

theorem OpponentModel.wf_model_update (m : OpponentModel) (hwf : m.wf) (b : Bid)
    (hb : ∀ p ∈ m.issue_estimators, ∃ v ∈ p.2.values, b.getValue p.1 = some v) :
    (m.update b).wf := by
  intro p hp
  simp only [OpponentModel.update, List.mem_map] at hp
  obtain ⟨q, hq, rfl⟩ := hp
  obtain ⟨v, hv, hbv⟩ := hb q hq
  have hq' := hwf q hq
  show (q.2.update (b.getValue q.1)).wf
  rw [hbv]
  exact BayesianIssueEstimator.wf_update q.2 hq' hv

theorem OpponentModel.bayes_predicted_utility_no_info (m : OpponentModel) (bid : Option Bid)
    (h : m.offers = [] ∨ bid = none) : m.get_predicted_utility bid = 0 := by
  cases bid with
  | none => rfl
  | some b =>
    rcases h with h | h
    · simp [OpponentModel.get_predicted_utility, h]
    · simp at h

theorem OpponentModel.bayes_predicted_utility_mem (m : OpponentModel) (hwf : m.wf)
    (bid : Option Bid) :
    0 ≤ m.get_predicted_utility bid ∧ m.get_predicted_utility bid ≤ 1 := by
  cases bid with
  | none => simp [OpponentModel.get_predicted_utility]
  | some b =>
    by_cases hof : m.offers = []
    · simp [OpponentModel.get_predicted_utility, hof]
    · simp only [OpponentModel.get_predicted_utility, if_neg hof]
      have hw : ∀ x ∈ m.issue_estimators.map fun p => p.2.get_weight, 0 ≤ x := by
        intro x hx
        simp only [List.mem_map] at hx
        obtain ⟨p, hp, rfl⟩ := hx
        exact p.2.get_weight_nonneg (hwf p hp)
      have htw0 : 0 ≤ (m.issue_estimators.map fun p => p.2.get_weight).sum :=
        List.sum_nonneg hw
      have hpu0 : 0 ≤ (m.issue_estimators.map fun p =>
          p.2.get_weight * p.2.get_value_utility (b.getValue p.1)).sum := by
        apply List.sum_nonneg
        intro x hx
        simp only [List.mem_map] at hx
        obtain ⟨p, hp, rfl⟩ := hx
        exact mul_nonneg (p.2.get_weight_nonneg (hwf p hp))
          (p.2.get_value_utility_pos (hwf p hp).1 _).le
      have hputw : (m.issue_estimators.map fun p =>
          p.2.get_weight * p.2.get_value_utility (b.getValue p.1)).sum
          ≤ (m.issue_estimators.map fun p => p.2.get_weight).sum := by
        apply List.sum_le_sum
        intro p hp
        exact mul_le_of_le_one_right (p.2.get_weight_nonneg (hwf p hp))
          (p.2.get_value_utility_le_one (hwf p hp) _)
      split_ifs with htw
      · exact ⟨div_nonneg hpu0 htw0, (div_le_one htw).mpr hputw⟩
      · norm_num

theorem BayesianIssueEstimator.get_weight_pos_first (vals : List String) (hne : vals ≠ [])
    (hnd : vals.Nodup) {v : String} (hv : v ∈ vals) :
    0 < ((BayesianIssueEstimator.ofValues vals).update (some v)).get_weight := by
  have hwf : ((BayesianIssueEstimator.ofValues vals).update (some v)).wf :=
    BayesianIssueEstimator.wf_update _ (BayesianIssueEstimator.wf_ofValues vals hne hnd) hv
  set e := (BayesianIssueEstimator.ofValues vals).update (some v) with he
  simp only [BayesianIssueEstimator.get_weight]
  by_cases h : 1 < e.values.length
  · rw [if_pos h]
    have hlog : 0 < Real.log (e.values.length : ℝ) := Real.log_pos (by exact_mod_cast h)
    have hwit : ∃ p ∈ e.probs, p ≠ 1 / (e.probs.length : ℝ) := by
      refine ⟨((e.value_counts (some v) : ℝ) + 1) /
        ((e.total_count : ℝ) + (e.values.length : ℝ)), List.mem_map_of_mem _ hv, ?_⟩
      have hcv : e.value_counts (some v) = 1 := by
        simp [he, BayesianIssueEstimator.update, BayesianIssueEstimator.ofValues]
      have htc : e.total_count = 1 := rfl
      rw [hcv, htc, e.probs_length]
      have hn2 : (2 : ℝ) ≤ (e.values.length : ℝ) := by exact_mod_cast h
      intro heq
      have hd0 : ((1 : ℕ) : ℝ) + (e.values.length : ℝ) ≠ 0 := by push_cast; linarith
      have hn0 : (e.values.length : ℝ) ≠ 0 := by linarith
      rw [div_eq_div_iff hd0 hn0] at heq
      push_cast at heq
      linarith
    have hstrict := entropy_lt_log_length e.probs (e.probs_pos hwf.1)
      (e.probs_sum_eq_one hwf) hwit
    rw [e.probs_length] at hstrict
    have : -((e.probs.map fun p => p * Real.log p).sum) / Real.log (e.values.length : ℝ) < 1 :=
      (div_lt_one hlog).mpr hstrict
    linarith
  · rw [if_neg h]
    norm_num

theorem OpponentModel.first_update_predicted_utility_pos
    (d : List (String × List String)) (hdne : d ≠ [])
    (hd : ∀ p ∈ d, p.2 ≠ [] ∧ p.2.Nodup) (b : Bid)
    (hb : ∀ p ∈ d, ∃ v ∈ p.2, b.getValue p.1 = some v) :
    0 < ((OpponentModel.ofDomain d).update b).get_predicted_utility (some b) := by
  have hof : ((OpponentModel.ofDomain d).update b).offers ≠ [] := by
    simp [OpponentModel.update, OpponentModel.ofDomain]
  have hest : ((OpponentModel.ofDomain d).update b).issue_estimators
      = d.map fun p => (p.1, (BayesianIssueEstimator.ofValues p.2).update (b.getValue p.1)) := by
    simp [OpponentModel.update, OpponentModel.ofDomain, List.map_map, Function.comp]
  simp only [OpponentModel.get_predicted_utility, if_neg hof, hest]
  have hwpos : ∀ p ∈ d, 0 < ((BayesianIssueEstimator.ofValues p.2).update (b.getValue p.1)).get_weight := by
    intro p hp
    obtain ⟨v, hv, hbv⟩ := hb p hp
    rw [hbv]
    exact BayesianIssueEstimator.get_weight_pos_first p.2 (hd p hp).1 (hd p hp).2 hv
  have htw : 0 < ((d.map fun p =>
      (p.1, (BayesianIssueEstimator.ofValues p.2).update (b.getValue p.1))).map fun p =>
        p.2.get_weight).sum := by
    apply List.sum_pos
    · intro x hx
      simp only [List.map_map, List.mem_map, Function.comp] at hx
      obtain ⟨p, hp, rfl⟩ := hx
      exact hwpos p hp
    · simp [hdne]
  have hpu : 0 < ((d.map fun p =>
      (p.1, (BayesianIssueEstimator.ofValues p.2).update (b.getValue p.1))).map fun p =>
        p.2.get_weight * p.2.get_value_utility (b.getValue p.1)).sum := by
    apply List.sum_pos
    · intro x hx
      simp only [List.map_map, List.mem_map, Function.comp] at hx
      obtain ⟨p, hp, rfl⟩ := hx
      exact mul_pos (hwpos p hp)
        (BayesianIssueEstimator.get_value_utility_pos _ (hd p hp).1 _)
    · simp [hdne]
  rw [if_pos htw]
  exact div_pos hpu htw

end AdaptiveLearner

/-- `lookup` only returns pairs present in the association list. -/
theorem list_lookup_mem {β : Type} :
    ∀ (l : List (String × β)) (a : String) (b : β), l.lookup a = some b → (a, b) ∈ l := by
  intro l
  induction l with
  | nil => intro a b h; simp [List.lookup] at h
  | cons q l ih =>
    intro a b h
    cases hbeq : (a == q.1) with
    | true =>
      simp only [List.lookup, hbeq] at h
      have ha : a = q.1 := eq_of_beq hbeq
      cases h
      subst ha
      exact List.mem_cons_self q l
    | false =>
      simp only [List.lookup, hbeq] at h
      exact List.mem_cons_of_mem q (ih a b h)

namespace StrategicConceder

/-!
## Lemmas about the KDE opponent model
-/

theorem OpponentModel.kde_predicted_utility_no_info (m : OpponentModel) (bid : Option Bid)
    (h : m.offers = [] ∨ bid = none) : m.get_predicted_utility bid = 0 := by
  cases bid with
  | none => rfl
  | some b =>
    rcases h with h | h
    · simp [OpponentModel.get_predicted_utility, h]
    · simp at h

theorem OpponentModel.kde_predicted_utility_mem (m : OpponentModel) (bid : Option Bid) :
    0 ≤ m.get_predicted_utility bid ∧ m.get_predicted_utility bid ≤ 1 := by
  cases bid with
  | none => simp [OpponentModel.get_predicted_utility]
  | some b =>
    by_cases hof : m.offers = []
    · simp [OpponentModel.get_predicted_utility, hof]
    · simp only [OpponentModel.get_predicted_utility, if_neg hof]
      constructor
      · exact le_max_left 0 _
      · exact max_le (by norm_num) (min_le_left 1 _)

end StrategicConceder

namespace DeadlinePusher

/-!
## Lemmas about the rank-distance opponent model
-/

theorem avdToWeight_nonneg (k : ℕ) : 0 ≤ avdToWeight k := by
  rcases k with _ | _ | _ | _ | _ | n <;> norm_num [avdToWeight]

/-- Estimator weights stay nonnegative across updates (they start at `0` and
are table values afterwards), justifying the nonnegativity part of
`OpponentModel.wf`. -/
theorem IssueEstimator.update_weight_nonneg (e : IssueEstimator) (avd : ℕ) :
    0 ≤ (e.update avd).weight :=
  avdToWeight_nonneg avd

theorem OpponentModel.getWeight_nonneg (m : OpponentModel) (hwf : m.wf) (issue : String) :
    0 ≤ m.getWeight issue := by
  cases hcase : m.issue_estimators.lookup issue with
  | none => simp [OpponentModel.getWeight, hcase]
  | some e =>
    have hmem : (issue, e) ∈ m.issue_estimators := list_lookup_mem _ _ _ hcase
    have hwe : 0 ≤ e.weight := hwf.2 (issue, e) hmem
    have htot : 0 ≤ (m.issue_estimators.map fun p => p.2.weight).sum :=
      List.sum_nonneg fun x hx => by
        simp only [List.mem_map] at hx
        obtain ⟨p, hp, rfl⟩ := hx
        exact hwf.2 p hp
    simp only [OpponentModel.getWeight, hcase]
    split_ifs with h
    · positivity
    · exact div_nonneg hwe htot

/-- With duplicate-free issue keys the normalized weights sum to `1`
(whenever there is at least one estimator). -/
theorem OpponentModel.sum_getWeight (m : OpponentModel) (hwf : m.wf)
    (hne : m.issue_estimators ≠ []) :
    (m.issue_estimators.map fun p => m.getWeight p.1).sum = 1 := by
  have hlk : ∀ p ∈ m.issue_estimators, m.issue_estimators.lookup p.1 = some p.2 :=
    list_lookup_of_nodup_keys m.issue_estimators hwf.1
  have hlen : ((m.issue_estimators.length : ℝ)) ≠ 0 := by
    have : 0 < m.issue_estimators.length := List.length_pos.mpr hne
    exact_mod_cast Nat.pos_iff_ne_zero.mp this
  by_cases h : (m.issue_estimators.map fun p => p.2.weight).sum = 0
  · have hmap : (m.issue_estimators.map fun p => m.getWeight p.1)
        = m.issue_estimators.map fun _ => 1 / (m.issue_estimators.length : ℝ) := by
      apply List.map_congr_left
      intro p hp
      simp only [OpponentModel.getWeight, hlk p hp, if_pos h]
    rw [hmap, list_sum_map_const]
    field_simp
  · have hmap : (m.issue_estimators.map fun p => m.getWeight p.1)
        = m.issue_estimators.map fun p =>
            p.2.weight / (m.issue_estimators.map fun q => q.2.weight).sum := by
      apply List.map_congr_left
      intro p hp
      simp only [OpponentModel.getWeight, hlk p hp, if_neg h]
    rw [hmap, list_sum_map_div, div_self h]

theorem OpponentModel.predictedUtility_of_no_info (m : OpponentModel) (bid : Option Bid)
    (h : m.offers = [] ∨ bid = none) : m.predictedUtility bid = 0 := by
  cases bid with
  | none => rfl
  | some b =>
    rcases h with h | h
    · simp [OpponentModel.predictedUtility, h]
    · simp at h

theorem OpponentModel.predictedUtility_mem (m : OpponentModel) (hwf : m.wf)
    (bid : Option Bid) :
    0 ≤ m.predictedUtility bid ∧ m.predictedUtility bid ≤ 1 := by
  cases bid with
  | none => simp [OpponentModel.predictedUtility]
  | some b =>
    cases hlast : m.offers.getLast? with
    | none => simp [OpponentModel.predictedUtility, hlast]
    | some lb =>
      simp only [OpponentModel.predictedUtility, hlast]
      have h0 : 0 ≤ (m.issue_estimators.map fun p =>
          m.getWeight p.1 * (if b.getValue p.1 = lb.getValue p.1 then (1 : ℝ) else 0)).sum := by
        apply List.sum_nonneg
        intro x hx
        simp only [List.mem_map] at hx
        obtain ⟨p, hp, rfl⟩ := hx
        exact mul_nonneg (m.getWeight_nonneg hwf p.1) (by split_ifs <;> norm_num)
      refine ⟨h0, ?_⟩
      by_cases hne : m.issue_estimators = []
      · simp [hne]
      · have hle : (m.issue_estimators.map fun p =>
            m.getWeight p.1 * (if b.getValue p.1 = lb.getValue p.1 then (1 : ℝ) else 0)).sum
            ≤ (m.issue_estimators.map fun p => m.getWeight p.1).sum := by
          apply List.sum_le_sum
          intro p hp
          exact mul_le_of_le_one_right (m.getWeight_nonneg hwf p.1) (by split_ifs <;> norm_num)
        rw [m.sum_getWeight hwf hne] at hle
        exact hle

end DeadlinePusher

namespace StrategicConceder

/-!
## Trade-off target tracker lemmas
-/

theorem targetAfter_succ (res : ℝ) (n : ℕ) :
    targetAfter res (n + 1) = max res (targetAfter res n - 0.0005) := by
  simp [targetAfter, updateTargetUtility]

theorem targetAfter_floor (res : ℝ) (hres : res ≤ 1) (n : ℕ) : res ≤ targetAfter res n := by
  cases n with
  | zero => exact hres
  | succ n => rw [targetAfter_succ]; exact le_max_left _ _

theorem targetAfter_antitone (res : ℝ) (hres : res ≤ 1) (n : ℕ) :
    targetAfter res (n + 1) ≤ targetAfter res n := by
  rw [targetAfter_succ]
  exact max_le (targetAfter_floor res hres n) (by linarith)

theorem targetAfter_strict (res : ℝ) (n : ℕ) (h : res < targetAfter res (n + 1)) :
    targetAfter res (n + 1) < targetAfter res n := by
  rw [targetAfter_succ] at h ⊢
  rcases max_cases res (targetAfter res n - 0.0005) with ⟨he, _⟩ | ⟨he, _⟩
  · rw [he] at h; exact absurd h (lt_irrefl res)
  · rw [he]; linarith

theorem targetAfter_lower_bound (res : ℝ) (n : ℕ) :
    1 - 0.0005 * (n : ℝ) ≤ targetAfter res n := by
  induction n with
  | zero => simp [targetAfter]
  | succ k ih =>
    rw [targetAfter_succ]
    refine le_trans ?_ (le_max_right _ _)
    push_cast
    linarith

end StrategicConceder

namespace AdaptiveLearner

/-- C3: `compute_acceptance_threshold(t)` returns
`max(reservation, initial − (initial − final)·t − 0.10·clamp(concession, 0, 1))`
with `initial = 0.95`, `final = 0.70`, `reservation = 0.65`, where the
concession is the relative drop of the opponent's predicted utility of its
current offer versus its first offer; and for every `t` and every concession
value the returned threshold is never below the configured reservation
value. -/
theorem c3_dynamic_threshold_acceptance (s : AgentState) (t init : ℝ) (b : Bid)
    (hi : s.initial_opponent_utility = some init) (hl : s.last_received_bid = some b)
    (hres : s.reservation_value = 0.65) :
    compute_acceptance_threshold s t =
      max 0.65 (0.95 - (0.95 - 0.70) * t -
        0.10 * max 0 (min ((init - s.opponent_model.get_predicted_utility (some b)) / init) 1)) ∧
    ∀ (s' : AgentState) (t' : ℝ), s'.reservation_value ≤ compute_acceptance_threshold s' t' := by
  constructor
  · simp only [compute_acceptance_threshold, hi, hl, hres]
    rw [max_comm]
    congr 1
    ring
  · intro s' t'
    simp only [compute_acceptance_threshold]
    rcases hi' : s'.initial_opponent_utility with _ | init' <;>
      rcases hl' : s'.last_received_bid with _ | b' <;>
        simp [le_max_right]

/-- Witness for C3 at a concrete agent state and time. -/
theorem c3_dynamic_threshold_acceptance_witness :
    compute_acceptance_threshold
        ⟨some 1, some bidLX, OpponentModel.ofDomain domainAB, 0.65⟩ (1/2) =
      max 0.65 (0.95 - (0.95 - 0.70) * (1/2) -
        0.10 * max 0 (min ((1 -
          (OpponentModel.ofDomain domainAB).get_predicted_utility (some bidLX)) / 1) 1)) ∧
    ∀ (s' : AgentState) (t' : ℝ), s'.reservation_value ≤ compute_acceptance_threshold s' t' :=
  c3_dynamic_threshold_acceptance ⟨some 1, some bidLX, OpponentModel.ofDomain domainAB, 0.65⟩
    (1/2) 1 bidLX rfl rfl rfl

end AdaptiveLearner

namespace StrategicConceder

/-- C4: each turn `_update_target_utility` subtracts the fixed decrement
`0.0005` from the target utility and floors it at the reservation value;
hence the target sequence is non-increasing, never below the reservation
value, and strictly decreasing while above it — in particular with
reservation value `0.3` it is strictly decreasing across 100 turns and never
below `0.3`. -/
theorem c4_target_utility_tracker (res : ℝ) (hres : res ≤ 1) :
    (∀ s : AgentState, (updateTargetUtility s).target_utility =
      max s.reservation_value (s.target_utility - 0.0005)) ∧
    (∀ n, targetAfter res (n + 1) ≤ targetAfter res n) ∧
    (∀ n, res ≤ targetAfter res n) ∧
    (∀ n, res < targetAfter res (n + 1) → targetAfter res (n + 1) < targetAfter res n) ∧
    (∀ n, n < 100 →
      targetAfter (0.3 : ℝ) (n + 1) < targetAfter (0.3 : ℝ) n ∧
        (0.3 : ℝ) ≤ targetAfter (0.3 : ℝ) n) := by
  refine ⟨fun s => rfl, targetAfter_antitone res hres, targetAfter_floor res hres,
    targetAfter_strict res, ?_⟩
  intro n hn
  have hfloor := targetAfter_floor (0.3 : ℝ) (by norm_num) n
  have hlb := targetAfter_lower_bound (0.3 : ℝ) (n + 1)
  have hcast : ((n : ℝ) + 1) ≤ 100 := by
    have : (n : ℝ) ≤ 99 := by exact_mod_cast Nat.lt_succ_iff.mp (by omega : n < 100)
    linarith
  have hpos : (0.3 : ℝ) < targetAfter (0.3 : ℝ) (n + 1) := by
    push_cast at hlb
    nlinarith
  exact ⟨targetAfter_strict (0.3 : ℝ) n hpos, hfloor⟩

/-- Witness for C4 at the reservation value of the end-to-end scenario. -/
theorem c4_target_utility_tracker_witness :
    (∀ s : AgentState, (updateTargetUtility s).target_utility =
      max s.reservation_value (s.target_utility - 0.0005)) ∧
    (∀ n, targetAfter (0.3 : ℝ) (n + 1) ≤ targetAfter (0.3 : ℝ) n) ∧
    (∀ n, (0.3 : ℝ) ≤ targetAfter (0.3 : ℝ) n) ∧
    (∀ n, (0.3 : ℝ) < targetAfter (0.3 : ℝ) (n + 1) →
      targetAfter (0.3 : ℝ) (n + 1) < targetAfter (0.3 : ℝ) n) ∧
    (∀ n, n < 100 →
      targetAfter (0.3 : ℝ) (n + 1) < targetAfter (0.3 : ℝ) n ∧
        (0.3 : ℝ) ≤ targetAfter (0.3 : ℝ) n) :=
  c4_target_utility_tracker (0.3 : ℝ) (by norm_num)

/-- C8: `accept_condition` returns `True` iff an offer has been received
(`False` on a `None` bid), its own-utility is at least the reservation value
and at least the own-utility of the bid about to be proposed; with received
utility `0.7`, next-offer utility `0.65` and reservation `0.5` it accepts,
and with received utility `0.4` and reservation `0.5` it rejects regardless
of the next-offer utility. -/
theorem c8_ac_next_acceptance :
    (∀ (getUtility : Bid → ℝ) (res : ℝ) (received : Option Bid) (next : Bid),
      accept_condition getUtility res received next ↔
        ∃ b, received = some b ∧ getUtility b ≥ res ∧ getUtility b ≥ getUtility next) ∧
    accept_condition (fun b => if b = bidX then (0.7 : ℝ) else 0.65) 0.5 (some bidX) bidY ∧
    ∀ u : ℝ, ¬ accept_condition (fun b => if b = bidX then (0.4 : ℝ) else u) 0.5 (some bidX) bidY := by
  refine ⟨?_, ?_, ?_⟩
  · intro getUtility res received next
    cases received with
    | none => simp [accept_condition]
    | some b => simp [accept_condition]
  · have hxy : bidY ≠ bidX := by decide
    simp only [accept_condition, if_pos rfl, if_neg hxy]
    norm_num
  · intro u
    simp only [accept_condition, if_pos rfl]
    intro h
    have := h.1
    norm_num at this

end StrategicConceder

namespace DeadlinePusher

/-- C6: the concession curve `α(t) = κ + (1 − κ)·t^(1/β)` with `κ = 0.1`
and `β = 0.2` satisfies `α(0) = κ`, `α(1) = 1`, and is non-decreasing on
`[0, 1]`. -/
theorem c6_concession_curve_shape :
    compute_alpha 0 = kappa ∧ compute_alpha 1 = 1 ∧
    ∀ t₁ t₂ : ℝ, 0 ≤ t₁ → t₁ ≤ t₂ → t₂ ≤ 1 → compute_alpha t₁ ≤ compute_alpha t₂ := by
  refine ⟨?_, ?_, ?_⟩
  · rw [compute_alpha, Real.zero_rpow (by norm_num [beta])]
    ring
  · rw [compute_alpha, Real.one_rpow]
    norm_num [kappa]
  · intro t₁ t₂ h0 h12 _
    have hr : t₁ ^ ((1 : ℝ) / beta) ≤ t₂ ^ ((1 : ℝ) / beta) :=
      Real.rpow_le_rpow h0 h12 (by norm_num [beta])
    have hk : (0 : ℝ) ≤ 1 - kappa := by norm_num [kappa]
    unfold compute_alpha
    nlinarith [mul_le_mul_of_nonneg_left hr hk]

/-- Witness for C6: monotonicity instantiated at `t₁ = 1/4`, `t₂ = 1/2`. -/
theorem c6_concession_curve_shape_witness :
    compute_alpha (1/4) ≤ compute_alpha (1/2) :=
  c6_concession_curve_shape.2.2 (1/4) (1/2) (by norm_num) (by norm_num) (by norm_num)

end DeadlinePusher

namespace AdaptiveLearner

/-- C5: for every state of the frequency-Bayesian estimator, the value
utility equals the spec's Dirichlet-smoothed frequency
`(count(v) + 1) / (totalObservations + numPossibleValues)` and the issue
weight equals `1 −` the spec's normalized entropy (Shannon entropy over the
smoothed distribution divided by `ln(numPossibleValues)`, `0` for a single
possible value). -/
theorem c5_bayesian_estimator_formulas (e : BayesianIssueEstimator) :
    (∀ v, e.get_value_utility v =
      spec_dirichlet_value_estimate (e.value_counts v) e.total_count e.values.length) ∧
    e.get_weight = 1 - spec_normalized_entropy
      (e.values.map fun v =>
        spec_dirichlet_value_estimate (e.value_counts (some v)) e.total_count e.values.length)
      e.values.length := by
  refine ⟨fun v => rfl, ?_⟩
  have hprobs : (e.values.map fun v =>
      spec_dirichlet_value_estimate (e.value_counts (some v)) e.total_count e.values.length)
      = e.probs := rfl
  rw [hprobs]
  by_cases h1 : e.values.length = 1
  · simp only [BayesianIssueEstimator.get_weight, spec_normalized_entropy, if_pos h1, h1]
    norm_num
  · by_cases h2 : 1 < e.values.length
    · simp only [BayesianIssueEstimator.get_weight, spec_normalized_entropy, if_pos h2,
        if_neg h1]
    · have h0 : e.values.length = 0 := by omega
      have hnil : e.values = [] := List.length_eq_zero.mp h0
      simp only [BayesianIssueEstimator.get_weight, spec_normalized_entropy, if_neg h1,
        if_neg h2, BayesianIssueEstimator.probs, hnil]
      simp

end AdaptiveLearner

/-- C9 counterexample: constructing the KDE opponent model on a domain with
one continuous (numeric-range) issue does not fail — it silently skips the
issue and yields a model with no `issue_info` entry at all. -/
theorem c9_unsupported_issue_counterexample :
    (StrategicConceder.OpponentModel.init contDomain).issue_info = [] := rfl

/-- C9 (amended): the Frequency-Bayesian and Rank-Distance issue estimators
fail on a continuous value set (with a `TypeError`, not an
`UnsupportedIssueType` error), while the KDE opponent model does not fail:
its constructor silently keeps exactly the discrete issues. -/
theorem c9_unsupported_issue_amended :
    (∀ lo hi : ℚ, AdaptiveLearner.BayesianIssueEstimator.init (.numberRange lo hi) =
      .error "BayesianIssueEstimator supports only issues with discrete values") ∧
    (∀ lo hi : ℚ, DeadlinePusher.IssueEstimator.init (.numberRange lo hi) =
      .error "This issue estimator only supports issues with discrete values") ∧
    (∀ domain : List (String × ValueSet),
      (StrategicConceder.OpponentModel.init domain).issue_info.map Prod.fst =
        (domain.filter fun p => p.2.isDiscrete).map Prod.fst) := by
  refine ⟨fun lo hi => rfl, fun lo hi => rfl, ?_⟩
  intro domain
  show ((domain.filterMap fun p => _).map Prod.fst) = _
  generalize (1 : ℝ) / ((domain.length : ℕ) : ℝ) = w
  induction domain with
  | nil => rfl
  | cons p l ih =>
    cases hp : p.2 with
    | discrete vals =>
      simp [List.filterMap_cons, List.filter_cons, hp, ValueSet.isDiscrete, ih]
    | numberRange lo hi =>
      simp [List.filterMap_cons, List.filter_cons, hp, ValueSet.isDiscrete, ih]

namespace DeadlinePusher

theorem compute_alpha_half : compute_alpha (1/2) = 41/320 := by
  rw [compute_alpha, show (1 : ℝ)/beta = ((5 : ℕ) : ℝ) by norm_num [beta],
    Real.rpow_natCast]
  norm_num [kappa]

/-- C7 counterexample: at `t = 1/2` on a five-value issue (already ranked by
strictly descending utility), the index argument is
`α(1/2)·4 = 0.5125`; the source truncates it with `int()` and picks the
value at index `0`, while the claimed `round` gives index `1`, a different
value. -/
theorem c7_round_index_counterexample :
    discrete_time_value lFive (1/2) = some "a" ∧
    spec_discrete_time_value lFive (1/2) = some "b" ∧
    discrete_time_value lFive (1/2) ≠ spec_discrete_time_value lFive (1/2) := by
  have hsort : sortValuesDesc lFive = lFive := by decide
  have hlen : ((lFive.length : ℝ) - 1) = 4 := by norm_num [lFive]
  have harg : compute_alpha (1/2) * ((lFive.length : ℝ) - 1) = 41/80 := by
    rw [compute_alpha_half, hlen]; norm_num
  have hfloor : (⌊compute_alpha (1/2) * ((lFive.length : ℝ) - 1)⌋).toNat = 0 := by
    rw [harg]
    norm_num [Int.floor_eq_zero_iff, Set.mem_Ico]
  have hround : (round (compute_alpha (1/2) * ((lFive.length : ℝ) - 1))).toNat = 1 := by
    rw [harg, round_eq]
    have : ⌊(41 : ℝ)/80 + 1/2⌋ = 1 := by
      rw [Int.floor_eq_iff]
      norm_num
    rw [this]
    rfl
  refine ⟨?_, ?_, ?_⟩
  · simp only [discrete_time_value, hsort, hfloor]
    rfl
  · simp only [spec_discrete_time_value, hsort, hround]
    rfl
  · simp only [discrete_time_value, spec_discrete_time_value, hsort, hfloor, hround]
    decide

/-- C7 (amended): for each discrete issue, the chosen value of the
time-dependent bid is the one at the truncated index
`⌊α(t)·(count−1)⌋` in the issue's values ranked by own utility descending
(a descending-sorted permutation of the value/utility pairs); for
`t ∈ [0, 1]` on a nonempty issue that index is always in range. -/
theorem c7_concession_curve_indexing (l : List (String × ℚ)) (t : ℝ)
    (h0 : 0 ≤ t) (h1 : t ≤ 1) (hne : l ≠ []) :
    ∃ ranked : List (String × ℚ), List.Perm ranked l ∧
      List.Sorted valueDescOrder ranked ∧
      (⌊compute_alpha t * ((l.length : ℝ) - 1)⌋).toNat < l.length ∧
      discrete_time_value l t =
        (ranked[(⌊compute_alpha t * ((l.length : ℝ) - 1)⌋).toNat]?).map Prod.fst := by
  refine ⟨sortValuesDesc l, List.perm_insertionSort _ l, List.sorted_insertionSort _ l,
    ?_, rfl⟩
  have hlen : 1 ≤ l.length := List.length_pos.mpr hne
  have hlenR : (1 : ℝ) ≤ (l.length : ℝ) := by exact_mod_cast hlen
  have hrp0 : 0 ≤ t ^ ((1 : ℝ) / beta) := Real.rpow_nonneg h0 _
  have hrp1 : t ^ ((1 : ℝ) / beta) ≤ 1 := Real.rpow_le_one h0 h1 (by norm_num [beta])
  have hk : kappa = 0.1 := rfl
  have ha0 : 0 ≤ compute_alpha t := by
    rw [compute_alpha, hk]; linarith [hrp0]
  have ha1 : compute_alpha t ≤ 1 := by
    rw [compute_alpha, hk]; linarith [hrp1]
  have hx : compute_alpha t * ((l.length : ℝ) - 1) ≤ (l.length : ℝ) - 1 := by
    nlinarith
  have hcast : ((l.length : ℝ) - 1) = (((l.length : ℤ) - 1 : ℤ) : ℝ) := by push_cast; ring
  have hfl : ⌊compute_alpha t * ((l.length : ℝ) - 1)⌋ ≤ (l.length : ℤ) - 1 := by
    calc ⌊compute_alpha t * ((l.length : ℝ) - 1)⌋ ≤ ⌊(l.length : ℝ) - 1⌋ :=
          Int.floor_le_floor hx
      _ = (l.length : ℤ) - 1 := by rw [hcast, Int.floor_intCast]
  omega

/-- Witness for C7's amended statement at `t = 1/2` on the five-value
issue. -/
theorem c7_concession_curve_indexing_witness :
    ∃ ranked : List (String × ℚ), List.Perm ranked lFive ∧
      List.Sorted valueDescOrder ranked ∧
      (⌊compute_alpha (1/2) * ((lFive.length : ℝ) - 1)⌋).toNat < lFive.length ∧
      discrete_time_value lFive (1/2) =
        (ranked[(⌊compute_alpha (1/2) * ((lFive.length : ℝ) - 1)⌋).toNat]?).map Prod.fst :=
  c7_concession_curve_indexing lFive (1/2) (by norm_num) (by norm_num) (by decide)

end DeadlinePusher

namespace AdaptiveLearner

/-- C10: updating a fresh frequency-Bayesian model with a first well-formed
offer and then predicting that same offer's utility — exactly how
`opponent_action` computes `initial_opponent_utility` — yields a strictly
positive value (Dirichlet `count+1` smoothing makes every value utility
positive and, after one observation, every issue weight positive), so the
divisions by `initial_opponent_utility` in `compute_acceptance_threshold`
and `score_bid` are never divisions by zero. -/
theorem c10_initial_opponent_utility_pos
    (d : List (String × List String)) (hdne : d ≠ [])
    (hd : ∀ p ∈ d, p.2 ≠ [] ∧ p.2.Nodup) (b : Bid)
    (hb : ∀ p ∈ d, ∃ v ∈ p.2, b.getValue p.1 = some v) :
    0 < ((OpponentModel.ofDomain d).update b).get_predicted_utility (some b) :=
  OpponentModel.first_update_predicted_utility_pos d hdne hd b hb

/-- Witness for C10 on the two-issue scenario domain and the offer
`(low, x)`. -/
theorem c10_initial_opponent_utility_pos_witness :
    0 < ((OpponentModel.ofDomain domainAB).update bidLX).get_predicted_utility (some bidLX) :=
  c10_initial_opponent_utility_pos domainAB (by decide) (by decide) bidLX (by decide)

end AdaptiveLearner

/-- C1: for every opponent-model variant, the predicted utility of a
candidate bid is `0.0` when no bid has yet been observed or when the
candidate bid is absent, and always lies in `[0, 1]`.  The
Frequency-Bayesian (`AdaptiveLearner.OpponentModel.get_predicted_utility`,
for well-formed model states) and Density-Estimation
(`StrategicConceder.OpponentModel.get_predicted_utility`, for every state)
variants are embedded from the source; the Rank-Distance variant exposes no
`predictedUtility` in the source, so the spec-modelled
`DeadlinePusher.OpponentModel.predictedUtility` is used for it. -/
theorem c1_predicted_utility_contract
    (mB : AdaptiveLearner.OpponentModel) (hB : mB.wf)
    (mK : StrategicConceder.OpponentModel)
    (mR : DeadlinePusher.OpponentModel) (hR : mR.wf)
    (bid : Option Bid) :
    ((mB.offers = [] ∨ bid = none) → mB.get_predicted_utility bid = 0) ∧
    (0 ≤ mB.get_predicted_utility bid ∧ mB.get_predicted_utility bid ≤ 1) ∧
    ((mK.offers = [] ∨ bid = none) → mK.get_predicted_utility bid = 0) ∧
    (0 ≤ mK.get_predicted_utility bid ∧ mK.get_predicted_utility bid ≤ 1) ∧
    ((mR.offers = [] ∨ bid = none) → mR.predictedUtility bid = 0) ∧
    (0 ≤ mR.predictedUtility bid ∧ mR.predictedUtility bid ≤ 1) :=
  ⟨mB.bayes_predicted_utility_no_info bid, mB.bayes_predicted_utility_mem hB bid,
   mK.kde_predicted_utility_no_info bid, mK.kde_predicted_utility_mem bid,
   mR.predictedUtility_of_no_info bid, mR.predictedUtility_mem hR bid⟩

/-- Witness for C1 on concrete model states (a fresh Bayesian model on a
one-issue domain, an empty KDE model and a one-estimator rank-distance
model) and an absent candidate bid. -/
theorem c1_predicted_utility_contract_witness :
    (((AdaptiveLearner.OpponentModel.ofDomain [("i", ["a", "b"])]).offers = [] ∨
        (none : Option Bid) = none) →
      (AdaptiveLearner.OpponentModel.ofDomain [("i", ["a", "b"])]).get_predicted_utility none = 0) ∧
    (0 ≤ (AdaptiveLearner.OpponentModel.ofDomain [("i", ["a", "b"])]).get_predicted_utility none ∧
      (AdaptiveLearner.OpponentModel.ofDomain [("i", ["a", "b"])]).get_predicted_utility none ≤ 1) ∧
    (((⟨[], []⟩ : StrategicConceder.OpponentModel).offers = [] ∨ (none : Option Bid) = none) →
      (⟨[], []⟩ : StrategicConceder.OpponentModel).get_predicted_utility none = 0) ∧
    (0 ≤ (⟨[], []⟩ : StrategicConceder.OpponentModel).get_predicted_utility none ∧
      (⟨[], []⟩ : StrategicConceder.OpponentModel).get_predicted_utility none ≤ 1) ∧
    (((⟨[], [], [("i", DeadlinePusher.IssueEstimator.initState)]⟩ :
          DeadlinePusher.OpponentModel).offers = [] ∨ (none : Option Bid) = none) →
      (⟨[], [], [("i", DeadlinePusher.IssueEstimator.initState)]⟩ :
          DeadlinePusher.OpponentModel).predictedUtility none = 0) ∧
    (0 ≤ (⟨[], [], [("i", DeadlinePusher.IssueEstimator.initState)]⟩ :
          DeadlinePusher.OpponentModel).predictedUtility none ∧
      (⟨[], [], [("i", DeadlinePusher.IssueEstimator.initState)]⟩ :
          DeadlinePusher.OpponentModel).predictedUtility none ≤ 1) :=
  c1_predicted_utility_contract
    (AdaptiveLearner.OpponentModel.ofDomain [("i", ["a", "b"])])
    (AdaptiveLearner.OpponentModel.wf_ofDomain _ (by decide))
    ⟨[], []⟩
    ⟨[], [], [("i", DeadlinePusher.IssueEstimator.initState)]⟩
    ⟨by decide, by
      intro p hp
      simp only [List.mem_singleton] at hp
      subst hp
      norm_num [DeadlinePusher.IssueEstimator.initState]⟩
    none

namespace AdaptiveLearner

/-- After the five scenario updates, issue `A`'s entropy-derived weight is
strictly below issue `B`'s: `A`'s smoothed distribution `(4/7, 3/7)` is
close to uniform over two values while `B`'s `(4/8, 3/8, 1/8)` is peaked
over three, so `B` has the lower normalized entropy. -/
theorem issueWeight_m5_A_lt_B : issueWeight m5 "A" < issueWeight m5 "B" := by
  simp only [m5, OpponentModel.update, OpponentModel.ofDomain, domainAB, bidLX, bidHY,
    BayesianIssueEstimator.update, BayesianIssueEstimator.ofValues, Bid.getValue,
    List.lookup, issueWeight, BayesianIssueEstimator.get_weight,
    BayesianIssueEstimator.probs, List.map_cons, List.map_nil, List.sum_cons, List.sum_nil,
    Option.some.injEq, String.reduceEq, String.reduceBEq]
  norm_num
  have hl2 : (0 : ℝ) < Real.log 2 := Real.log_pos (by norm_num)
  have hl3 : (0 : ℝ) < Real.log 3 := Real.log_pos (by norm_num)
  rw [div_lt_div_iff₀ hl3 hl2]
  have l18 : Real.log ((1 : ℝ)/8) = -(3 * Real.log 2) := by
    rw [one_div, Real.log_inv, show (8 : ℝ) = 2 ^ (3 : ℕ) by norm_num, Real.log_pow]
    push_cast
    ring
  have l38 : Real.log ((3 : ℝ)/8) = Real.log 3 - 3 * Real.log 2 := by
    rw [Real.log_div (by norm_num) (by norm_num),
      show (8 : ℝ) = 2 ^ (3 : ℕ) by norm_num, Real.log_pow]
    push_cast
    ring
  have l12 : Real.log ((1 : ℝ)/2) = -Real.log 2 := by
    rw [one_div, Real.log_inv]
  have l37 : Real.log ((3 : ℝ)/7) = Real.log 3 - Real.log 7 :=
    Real.log_div (by norm_num) (by norm_num)
  have l47 : Real.log ((4 : ℝ)/7) = 2 * Real.log 2 - Real.log 7 := by
    rw [Real.log_div (by norm_num) (by norm_num),
      show (4 : ℝ) = 2 ^ (2 : ℕ) by norm_num, Real.log_pow]
    push_cast
    ring
  rw [l18, l38, l12, l37, l47]
  have h1 : 19 * Real.log 2 < 12 * Real.log 3 := by
    have h := Real.log_lt_log (show (0 : ℝ) < 2 ^ (19 : ℕ) by positivity)
      (show ((2 : ℝ) ^ (19 : ℕ)) < 3 ^ (12 : ℕ) by norm_num)
    rw [Real.log_pow, Real.log_pow] at h
    push_cast at h
    linarith
  have h2 : 17 * Real.log 3 < 27 * Real.log 2 := by
    have h := Real.log_lt_log (show (0 : ℝ) < 3 ^ (17 : ℕ) by positivity)
      (show ((3 : ℝ) ^ (17 : ℕ)) < 2 ^ (27 : ℕ) by norm_num)
    rw [Real.log_pow, Real.log_pow] at h
    push_cast at h
    linarith
  have h3 : 14 * Real.log 2 < 5 * Real.log 7 := by
    have h := Real.log_lt_log (show (0 : ℝ) < 2 ^ (14 : ℕ) by positivity)
      (show ((2 : ℝ) ^ (14 : ℕ)) < 7 ^ (5 : ℕ) by norm_num)
    rw [Real.log_pow, Real.log_pow] at h
    push_cast at h
    linarith
  nlinarith [mul_pos hl3 (show (0 : ℝ) < 5 * Real.log 7 - 14 * Real.log 2 by linarith),
    mul_pos hl3 (show (0 : ℝ) < 27 * Real.log 2 - 17 * Real.log 3 by linarith),
    mul_pos hl2 (show (0 : ℝ) < 12 * Real.log 3 - 19 * Real.log 2 by linarith),
    sq_nonneg (Real.log 2)]


/-- C2 counterexample: in the end-to-end scenario (issue `A` discrete
`{low, high}`, issue `B` discrete `{x, y, z}`, offers `(low,x)` three times
then `(high,y)` twice), issue `A`'s weight does NOT exceed issue `B`'s
weight — it is strictly smaller. -/
theorem c2_scenario_issue_weight_counterexample :
    ¬ (issueWeight m5 "A" > issueWeight m5 "B") :=
  lt_asymm issueWeight_m5_A_lt_B

/-- C2 (amended): after the five scenario updates, issue `B`'s
entropy-derived weight strictly exceeds issue `A`'s weight. -/
theorem c2_scenario_issue_weight_amended :
    issueWeight m5 "B" > issueWeight m5 "A" :=
  issueWeight_m5_A_lt_B

end AdaptiveLearner

namespace StrategicConceder

/-- Witness for C8: the rejection example instantiated at a concrete
next-offer utility. -/
theorem c8_ac_next_acceptance_witness :
    ¬ accept_condition (fun b => if b = bidX then (0.4 : ℝ) else 0) 0.5 (some bidX) bidY :=
  c8_ac_next_acceptance.2.2 0

end StrategicConceder
